import Mathlib

/-!
# BradGet: `src/base/file.h`

A shallow embedding of the byte-stream core declared in `file.h`:

* `FileBuffer` : the abstract Buffer (pure virtual `tell`, `seek`, `read`,
  `write`; generic `getc`, `putc`, `size`);
* `File`       : the reference-counted Handle over a `FileBuffer*`;
* `File::LineIterator` : the line iterator built on `File::getline`.

Objects live on an explicit heap. A call of a virtual member through a null or
dangling pointer has no result (`none`). `File::getline` is declared in
`file.h` only: its effect on a held Buffer and its outcome on an empty Handle
are parameters. Machine integers are natural numbers or integers with the
conversions of the C++ code written out.
-/

namespace BradGet

/-! ## Bytes and object representations -/

/-- One byte of memory (`uint8`). -/
abbrev Byte := Fin 256

/-- Lowest byte of a natural number. -/
def byteOf (x : Nat) : Byte := ⟨x % 256, Nat.mod_lt x (by decide)⟩

/-- Object representation of an unsigned integer occupying `n` bytes, lowest
address first. The targets of `<intrin.h>` (x86, x64, ARM) are little-endian,
so the byte at the lowest address is the least significant one. -/
def toLE : Nat → Nat → List Byte
  | 0, _ => []
  | n + 1, x => byteOf x :: toLE n (x / 256)

/-- Value of an unsigned integer whose object representation is the given
bytes, lowest address first. -/
def fromLE : List Byte → Nat
  | [] => 0
  | b :: bs => b.val + 256 * fromLE bs

/-- Content of a local variable occupying `mem.length` bytes after a raw
`read(&x, n)` that transferred the bytes `got`: the transferred bytes replace
the leading bytes, the remaining bytes keep their previous content. -/
def store (mem got : List Byte) : List Byte :=
  (got ++ mem.drop got.length).take mem.length

/-- Byte reversal of an `n`-byte unsigned integer, the documented effect of the
`_byteswap_*` compiler intrinsics. -/
def byteswap (n x : Nat) : Nat := fromLE (toLE n x).reverse

/-- Intrinsic `_byteswap_ushort` (16 bit). -/
def _byteswap_ushort (x : Nat) : Nat := byteswap 2 x

/-- Intrinsic `_byteswap_ulong` (32 bit). -/
def _byteswap_ulong (x : Nat) : Nat := byteswap 4 x

/-- Intrinsic `_byteswap_uint64` (64 bit). -/
def _byteswap_uint64 (x : Nat) : Nat := byteswap 8 x

/-- The `<stdio.h>` end-of-stream sentinel. -/
def EOF : Int := -1

/-- Seek mode `SEEK_SET` of `<stdio.h>`. -/
def SEEK_SET : Int := 0

/-- Seek mode `SEEK_CUR` of `<stdio.h>`. -/
def SEEK_CUR : Int := 1

/-- Seek mode `SEEK_END` of `<stdio.h>`. -/
def SEEK_END : Int := 2

/-- Conversion of a `uint64` argument to an `int64` parameter. -/
def toInt64 (x : Nat) : Int :=
  if x % 2 ^ 64 < 2 ^ 63 then ((x % 2 ^ 64 : Nat) : Int) else ((x % 2 ^ 64 : Nat) : Int) - 2 ^ 64

/-! ## FileBuffer -/

/-- The pure virtual members of `FileBuffer`, over the state `σ` of the
variants. `read n s` gives the bytes stored at `ptr` (their number is the
returned count) and `write bs s` receives the `size` bytes found at `ptr` and
gives the returned count. -/
structure FileBuffer (σ : Type) where
  /-- Source `virtual uint64 tell() const = 0` -/
  tell : σ → Nat
  /-- Source `virtual void seek(int64 pos, int mode) = 0` -/
  seek : Int → Int → σ → σ
  /-- Source `virtual size_t read(void* ptr, size_t size) = 0` -/
  read : Nat → σ → List Byte × σ
  /-- Source `virtual size_t write(void const* ptr, size_t size) = 0` -/
  write : List Byte → σ → Nat × σ

/-- Source `FileBuffer::getc` -/
def FileBuffer.getc {σ : Type} (B : FileBuffer σ) (s : σ) : Int × σ :=
  match B.read 1 s with
  | ([chr], s') => ((chr.val : Int), s')
  | (_, s') => (EOF, s')

/-- Source `FileBuffer::putc`: writes the byte at the lowest address of the `int`. -/
def FileBuffer.putc {σ : Type} (B : FileBuffer σ) (chr : Int) (s : σ) : σ :=
  (B.write ((toLE 4 (chr % 2 ^ 32).toNat).take 1) s).2

/-- Source `FileBuffer::size` -/
def FileBuffer.size {σ : Type} (B : FileBuffer σ) (s : σ) : Nat × σ :=
  let pos := B.tell s
  let s1 := B.seek 0 SEEK_END s
  let res := B.tell s1
  let s2 := B.seek (toInt64 pos) SEEK_SET s1
  (res, s2)

/-! ## Heap of reference-counted buffers -/

/-- A `FileBuffer` object on the heap: the counter of its `RefCounted` base
and the state of the variant. -/
structure Obj (σ : Type) where
  /-- the reference count -/
  ref_ : Nat
  /-- the state of the buffer variant -/
  buf : σ

/-- The heap: the object at each address, `none` where no live object is. -/
abbrev Heap (σ : Type) := Nat → Option (Obj σ)

/-- Modelled from the spec: `RefCounted::addref` (in `common.h`, which is not
part of `file.h`) increments the reference count of the object. -/
def RefCounted.addref {σ : Type} (p : Nat) (h : Heap σ) : Option (Heap σ) :=
  match h p with
  | none => none
  | some c => some (Function.update h p (some { c with ref_ := c.ref_ + 1 }))

/-- Modelled from the spec: `RefCounted::release` (in `common.h`, which is not
part of `file.h`) "decrements the reference count, freeing the Buffer when it
reaches zero; idempotent via the empty-state guard": on the null pointer it
does nothing. -/
def RefCounted.release {σ : Type} (p : Option Nat) (h : Heap σ) : Option (Heap σ) :=
  match p with
  | none => some h
  | some a =>
    match h a with
    | none => none
    | some c =>
      if c.ref_ - 1 = 0 then some (Function.update h a none)
      else some (Function.update h a (some { c with ref_ := c.ref_ - 1 }))

/-! ## File -/

/-- Class `File`: the Handle, a possibly null `FileBuffer*`. -/
structure File where
  /-- Source `FileBuffer* file_` -/
  file_ : Option Nat
deriving DecidableEq

/-- Source `File::File()` -/
def File.ctor : File := ⟨none⟩

/-- Source `File::File(FileBuffer* file)` -/
def File.ctor_ptr (file : Option Nat) : File := ⟨file⟩

/-- Source `File::File(File const& file)`: the new Handle and the heap. -/
def File.ctor_copy {σ : Type} (file : File) (h : Heap σ) : Option (File × Heap σ) :=
  match file.file_ with
  | none => some (⟨none⟩, h)
  | some p => (RefCounted.addref p h).map fun h' => (⟨some p⟩, h')

/-- Source `File::File(File&& file)`: the new Handle and the source afterwards. -/
def File.ctor_move (file : File) : File × File :=
  (⟨file.file_⟩, ⟨none⟩)

/-- Source `File::~File` -/
def File.dtor {σ : Type} (this : File) (h : Heap σ) : Option (Heap σ) :=
  RefCounted.release this.file_ h

/-- Source `File::release` -/
def File.release {σ : Type} (this : File) (h : Heap σ) : Option (File × Heap σ) :=
  (RefCounted.release this.file_ h).map fun h' => (⟨none⟩, h')

/-- Source `File::operator=(File const& file)`: the destination afterwards and the heap. -/
def File.assign_copy {σ : Type} (this file : File) (h : Heap σ) : Option (File × Heap σ) :=
  if this.file_ = file.file_ then some (this, h)
  else
    match RefCounted.release this.file_ h with
    | none => none
    | some h1 =>
      match file.file_ with
      | none => some (⟨none⟩, h1)
      | some p => (RefCounted.addref p h1).map fun h2 => (⟨some p⟩, h2)

/-- Source `File::operator=(File&& file)`: the destination and the source afterwards,
and the heap. -/
def File.assign_move {σ : Type} (this file : File) (h : Heap σ) :
    Option (File × File × Heap σ) :=
  if this.file_ = file.file_ then some (this, file, h)
  else (RefCounted.release this.file_ h).map fun h1 => (⟨file.file_⟩, ⟨none⟩, h1)

/-- Source `File::operator bool` -/
def File.operator_bool (this : File) : Bool := this.file_.isSome

/-- A call `file_->m(...)` of a virtual member of the buffer: `file_` is
dereferenced, the member runs on the state of the object and leaves it
changed. -/
def File.call {σ α : Type} (this : File) (h : Heap σ) (m : σ → α × σ) : Option (α × Heap σ) :=
  match this.file_ with
  | none => none
  | some p =>
    match h p with
    | none => none
    | some c => some ((m c.buf).1, Function.update h p (some { c with buf := (m c.buf).2 }))

/-- Source `File::getc` -/
def File.getc {σ : Type} (B : FileBuffer σ) (this : File) (h : Heap σ) : Option (Int × Heap σ) :=
  this.call h B.getc

/-- Source `File::putc` -/
def File.putc {σ : Type} (B : FileBuffer σ) (chr : Int) (this : File) (h : Heap σ) :
    Option (Unit × Heap σ) :=
  this.call h fun s => ((), B.putc chr s)

/-- Source `File::seek` -/
def File.seek {σ : Type} (B : FileBuffer σ) (pos mode : Int) (this : File) (h : Heap σ) :
    Option (Unit × Heap σ) :=
  this.call h fun s => ((), B.seek pos mode s)

/-- Source `File::tell` -/
def File.tell {σ : Type} (B : FileBuffer σ) (this : File) (h : Heap σ) : Option (Nat × Heap σ) :=
  this.call h fun s => (B.tell s, s)

/-- Source `File::size` -/
def File.size {σ : Type} (B : FileBuffer σ) (this : File) (h : Heap σ) : Option (Nat × Heap σ) :=
  this.call h B.size

/-- Source `File::read(void* dst, size_t size)`: the bytes stored at `dst`. -/
def File.read {σ : Type} (B : FileBuffer σ) (size : Nat) (this : File) (h : Heap σ) :
    Option (List Byte × Heap σ) :=
  this.call h (B.read size)

/-- Source `File::read8`; `x0` is the indeterminate initial value of the local `x`. -/
def File.read8 {σ : Type} (B : FileBuffer σ) (x0 : Nat) (this : File) (h : Heap σ) :
    Option (Nat × Heap σ) :=
  this.call h fun s =>
    let r := B.read 1 s
    (fromLE (store (toLE 1 x0) r.1), r.2)

/-- Source `File::read16`; `x0` is the indeterminate initial value of the local `x`. -/
def File.read16 {σ : Type} (B : FileBuffer σ) (big : Bool) (x0 : Nat) (this : File) (h : Heap σ) :
    Option (Nat × Heap σ) :=
  this.call h fun s =>
    let r := B.read 2 s
    let x := fromLE (store (toLE 2 x0) r.1)
    (if big then _byteswap_ushort x else x, r.2)

/-- Source `File::read32`; `x0` is the indeterminate initial value of the local `x`. -/
def File.read32 {σ : Type} (B : FileBuffer σ) (big : Bool) (x0 : Nat) (this : File) (h : Heap σ) :
    Option (Nat × Heap σ) :=
  this.call h fun s =>
    let r := B.read 4 s
    let x := fromLE (store (toLE 4 x0) r.1)
    (if big then _byteswap_ulong x else x, r.2)

/-- Source `File::read64`; `x0` is the indeterminate initial value of the local `x`. -/
def File.read64 {σ : Type} (B : FileBuffer σ) (big : Bool) (x0 : Nat) (this : File) (h : Heap σ) :
    Option (Nat × Heap σ) :=
  this.call h fun s =>
    let r := B.read 8 s
    let x := fromLE (store (toLE 8 x0) r.1)
    (if big then _byteswap_uint64 x else x, r.2)

/-- Source `File::write(void const* ptr, size_t size)` -/
def File.write {σ : Type} (B : FileBuffer σ) (bytes : List Byte) (this : File) (h : Heap σ) :
    Option (Nat × Heap σ) :=
  this.call h (B.write bytes)

/-- Source `File::write8` -/
def File.write8 {σ : Type} (B : FileBuffer σ) (x : Nat) (this : File) (h : Heap σ) :
    Option (Bool × Heap σ) :=
  this.call h fun s =>
    let r := B.write (toLE 1 x) s
    (decide (r.1 = 1), r.2)

/-- Source `File::write16` -/
def File.write16 {σ : Type} (B : FileBuffer σ) (x : Nat) (big : Bool) (this : File) (h : Heap σ) :
    Option (Bool × Heap σ) :=
  this.call h fun s =>
    let x := if big then _byteswap_ushort x else x
    let r := B.write (toLE 2 x) s
    (decide (r.1 = 2), r.2)

/-- Source `File::write32` -/
def File.write32 {σ : Type} (B : FileBuffer σ) (x : Nat) (big : Bool) (this : File) (h : Heap σ) :
    Option (Bool × Heap σ) :=
  this.call h fun s =>
    let x := if big then _byteswap_ulong x else x
    let r := B.write (toLE 4 x) s
    (decide (r.1 = 4), r.2)

/-- Source `File::write64` -/
def File.write64 {σ : Type} (B : FileBuffer σ) (x : Nat) (big : Bool) (this : File) (h : Heap σ) :
    Option (Bool × Heap σ) :=
  this.call h fun s =>
    let x := if big then _byteswap_uint64 x else x
    let r := B.write (toLE 8 x) s
    (decide (r.1 = 8), r.2)

/-- Modelled from the spec: `File::getline` is declared in `file.h` and defined
elsewhere. On a Handle that holds a Buffer it "accumulates characters via
`getc`" of that Buffer, so it is a call through `file_`; what it does to the
line and to the state of the Buffer is the parameter `G`, which gives the
returned flag and the content of `line` afterwards. On an empty Handle there is
no Buffer to change, and what the call does is not fixed by `file.h`: the spec
has the Handle "reject or no-op on I/O calls gracefully" and also lets the call
"fail fatally (null-reference dereference)". The parameter `E` gives the
outcome there: the returned flag and the content of `line` afterwards, or
`none` when the call has no result. -/
def File.getline {σ : Type} (G : String → σ → (Bool × String) × σ)
    (E : String → Option (Bool × String)) (this : File) (line : String) (h : Heap σ) :
    Option ((Bool × String) × Heap σ) :=
  match this.file_ with
  | none => (E line).map fun r => (r, h)
  | some _ => this.call h (G line)

/-! ## File::LineIterator -/

/-- Class `File::LineIterator`. -/
structure LineIterator where
  /-- Source `File file_` -/
  file_ : File
  /-- Source `std::string line_` -/
  line_ : String
deriving DecidableEq

/-- Source `LineIterator::LineIterator()` -/
def LineIterator.ctor : LineIterator := ⟨File.ctor, ""⟩

/-- Source `LineIterator::LineIterator(File& file)` -/
def LineIterator.ctor_file {σ : Type} (G : String → σ → (Bool × String) × σ)
    (E : String → Option (Bool × String)) (file : File) (h : Heap σ) :
    Option (LineIterator × Heap σ) :=
  match File.getline G E file "" h with
  | none => none
  | some ((true, line), h1) => (File.assign_copy File.ctor file h1).map fun r => (⟨r.1, line⟩, r.2)
  | some ((false, line), h1) => some (⟨File.ctor, line⟩, h1)

/-- Source `LineIterator::operator*` -/
def LineIterator.operator_deref (this : LineIterator) : String := this.line_

/-- Source `LineIterator::operator!=`: `File` has no comparison of its own, so both
sides are converted by `File::operator bool` and the flags are compared. -/
def LineIterator.operator_ne (this it : LineIterator) : Bool :=
  this.file_.operator_bool != it.file_.operator_bool

/-- Source `LineIterator::operator++` -/
def LineIterator.operator_incr {σ : Type} (G : String → σ → (Bool × String) × σ)
    (E : String → Option (Bool × String)) (this : LineIterator) (h : Heap σ) :
    Option (LineIterator × Heap σ) :=
  match File.getline G E this.file_ this.line_ h with
  | none => none
  | some ((false, line), h1) => (File.release this.file_ h1).map fun r => (⟨r.1, line⟩, r.2)
  | some ((true, line), h1) => some (⟨this.file_, line⟩, h1)

/-- The body of `for (...; it != end; ++it) use(*it)` with `end` a
default-constructed iterator: the lines dereferenced, the iterator and the heap
when the loop stops. `none` when a call has no result or the fuel runs out. -/
def LineIterator.loop {σ : Type} (G : String → σ → (Bool × String) × σ)
    (E : String → Option (Bool × String)) :
    Nat → LineIterator → Heap σ → Option (List String × LineIterator × Heap σ)
  | 0, _, _ => none
  | fuel + 1, it, h =>
    if it.operator_ne LineIterator.ctor then
      match it.operator_incr G E h with
      | none => none
      | some (it', h') =>
        (LineIterator.loop G E fuel it' h').map fun r => (it.operator_deref :: r.1, r.2)
    else some ([], it, h)

/-- The loop `for (it = LineIterator(file); it != end; ++it) use(*it)`. -/
def LineIterator.for_each {σ : Type} (G : String → σ → (Bool × String) × σ)
    (E : String → Option (Bool × String)) (fuel : Nat) (file : File) (h : Heap σ) :
    Option (List String × LineIterator × Heap σ) :=
  match LineIterator.ctor_file G E file h with
  | none => none
  | some (it, h1) => LineIterator.loop G E fuel it h1

/-- The lines of the first `k` calls of `getline` on a Buffer in state `s`,
the first call receiving `line`. -/
def getlineLines {σ : Type} (G : String → σ → (Bool × String) × σ) : Nat → String → σ → List String
  | 0, _, _ => []
  | k + 1, line, s => (G line s).1.2 :: getlineLines G k (G line s).1.2 (G line s).2

/-- Successive calls of `getline` on a Buffer in state `s` return `true`
exactly `k` times and then `false`. -/
def getlineCount {σ : Type} (G : String → σ → (Bool × String) × σ) : Nat → String → σ → Bool
  | 0, line, s => !(G line s).1.1
  | k + 1, line, s => (G line s).1.1 && getlineCount G k (G line s).1.2 (G line s).2

/-! ## Programs over Handles -/

/-- The live Handles of a program and the heap. -/
structure World (σ : Type) where
  /-- the heap of buffers -/
  heap : Heap σ
  /-- the Handles in scope -/
  files : List File

/-- The operations of `File` that touch the reference count, on the Handles
of a `World` by position. -/
inductive Op where
  /-- Source `File b(a)` with `a` the Handle at `src` -/
  | ctor_copy (src : Nat)
  /-- Source `File b(std::move(a))` with `a` the Handle at `src` -/
  | ctor_move (src : Nat)
  /-- Source `a = b` -/
  | assign_copy (dst src : Nat)
  /-- Source `a = std::move(b)` -/
  | assign_move (dst src : Nat)
  /-- Source `a.release()` -/
  | release (i : Nat)
  /-- the Handle at `i` goes out of scope -/
  | dtor (i : Nat)
deriving DecidableEq

/-- One operation on a `World`; `none` when it names a Handle that does not
exist or a call has no result. -/
def World.step {σ : Type} (w : World σ) : Op → Option (World σ)
  | .ctor_copy j =>
    match w.files[j]? with
    | none => none
    | some a => (File.ctor_copy a w.heap).map fun r => ⟨r.2, w.files ++ [r.1]⟩
  | .ctor_move j =>
    match w.files[j]? with
    | none => none
    | some a => some ⟨w.heap, w.files.set j (File.ctor_move a).2 ++ [(File.ctor_move a).1]⟩
  | .assign_copy i j =>
    match w.files[i]?, w.files[j]? with
    | some a, some b => (File.assign_copy a b w.heap).map fun r => ⟨r.2, w.files.set i r.1⟩
    | _, _ => none
  | .assign_move i j =>
    match w.files[i]?, w.files[j]? with
    | some a, some b =>
      (File.assign_move a b w.heap).map fun r => ⟨r.2.2, (w.files.set i r.1).set j r.2.1⟩
    | _, _ => none
  | .release i =>
    match w.files[i]? with
    | none => none
    | some a => (File.release a w.heap).map fun r => ⟨r.2, w.files.set i r.1⟩
  | .dtor i =>
    match w.files[i]? with
    | none => none
    | some a => (File.dtor a w.heap).map fun h' => ⟨h', w.files.eraseIdx i⟩

/-- A sequence of operations. -/
def World.run {σ : Type} : List Op → World σ → Option (World σ)
  | [], w => some w
  | op :: ops, w =>
    match w.step op with
    | none => none
    | some w' => World.run ops w'

/-- The operation names only Handles among the first `n`. -/
def Op.inScope (n : Nat) : Op → Bool
  | .ctor_copy j => decide (j < n)
  | .ctor_move j => decide (j < n)
  | .assign_copy i j => decide (i < n) && decide (j < n)
  | .assign_move i j => decide (i < n) && decide (j < n)
  | .release i => decide (i < n)
  | .dtor i => decide (i < n)

/-- The number of Handles in scope after the operation, of `n` before. -/
def Op.scopeAfter (n : Nat) : Op → Nat
  | .ctor_copy _ => n + 1
  | .ctor_move _ => n + 1
  | .dtor _ => n - 1
  | _ => n

/-- Every operation of the sequence names only Handles in scope when it runs. -/
def opsInScope : List Op → Nat → Bool
  | [], _ => true
  | op :: ops, n => op.inScope n && opsInScope ops (op.scopeAfter n)

/-- The number of Handles that refer to the buffer at `p`. -/
def handleCount (files : List File) (p : Nat) : Nat :=
  files.countP fun f => decide (f.file_ = some p)

/-- The reference-count invariant at the address `p`: a live buffer's count
is the number of Handles referring to it, and no Handle refers to a destroyed
buffer. -/
def CountedAt {σ : Type} (w : World σ) (p : Nat) : Prop :=
  match w.heap p with
  | some c => c.ref_ = handleCount w.files p
  | none => handleCount w.files p = 0

/-- The reference-count invariant. -/
def Counted {σ : Type} (w : World σ) : Prop := ∀ p, CountedAt w p

/-! ## Widths and byte orders -/

/-- The widths of the typed accessors. -/
inductive Width where
  | w16
  | w32
  | w64
deriving DecidableEq

/-- The number of bytes of a width. -/
def Width.bytes : Width → Nat
  | .w16 => 2
  | .w32 => 4
  | .w64 => 8

/-- Source `File::read16`, `File::read32` or `File::read64`, by width. -/
def File.readW {σ : Type} (B : FileBuffer σ) :
    Width → Bool → Nat → File → Heap σ → Option (Nat × Heap σ)
  | .w16 => File.read16 B
  | .w32 => File.read32 B
  | .w64 => File.read64 B

/-- Source `File::write16`, `File::write32` or `File::write64`, by width. -/
def File.writeW {σ : Type} (B : FileBuffer σ) :
    Width → Nat → Bool → File → Heap σ → Option (Bool × Heap σ)
  | .w16 => File.write16 B
  | .w32 => File.write32 B
  | .w64 => File.write64 B

/-- The `n` bytes of `V`, least significant first. -/
def bytesLSF (n V : Nat) : List Byte :=
  (List.range n).map fun i => byteOf (V / 256 ^ i)

/-- The `n` bytes of `V`, most significant first. -/
def bytesMSF (n V : Nat) : List Byte :=
  (List.range n).map fun i => byteOf (V / 256 ^ (n - 1 - i))

/-- The bytes read as a little-endian integer: the byte at index `i` weighs
`256 ^ i`. -/
def valueLE (bs : List Byte) : Nat :=
  ((List.range bs.length).map fun i => (bs.getD i 0).val * 256 ^ i).sum

/-- The bytes read as a big-endian integer: the first byte is the most
significant. -/
def valueBE (bs : List Byte) : Nat :=
  bs.foldl (fun acc b => acc * 256 + b.val) 0

/-! ## A memory-backed Buffer -/

/-- State of a memory-backed Buffer: the bytes and the cursor. -/
structure MemState where
  /-- the content -/
  data : List Byte
  /-- the cursor -/
  pos : Nat
deriving DecidableEq

/-- Modelled from the spec: the memory-backed Buffer variant is defined outside
`file.h`. Following the Buffer contract, `read` copies up to `n` bytes
starting at the cursor and advances the cursor by the amount copied, `write`
copies the bytes into the store at the cursor, extending it, and `seek` moves
the cursor from the start, the cursor or the end. -/
def memBuffer : FileBuffer MemState where
  tell s := s.pos
  seek pos mode s :=
    if mode = SEEK_SET then { s with pos := pos.toNat }
    else if mode = SEEK_CUR then { s with pos := ((s.pos : Int) + pos).toNat }
    else { s with pos := ((s.data.length : Int) + pos).toNat }
  read n s :=
    ((s.data.drop s.pos).take n, { s with pos := s.pos + ((s.data.drop s.pos).take n).length })
  write bs s :=
    (bs.length,
      { data := s.data.take s.pos ++ List.replicate (s.pos - s.data.length) 0 ++ bs
          ++ s.data.drop (s.pos + bs.length),
        pos := s.pos + bs.length })

/-- Modelled from the spec: a `getline` over the memory-backed Buffer that
accumulates the bytes up to a line feed or the end of the content and returns
`false` only when no byte was left. -/
def memGetline (_line : String) (s : MemState) : (Bool × String) × MemState :=
  let rest := s.data.drop s.pos
  let taken := rest.takeWhile fun b => b.val != 10
  let used := if taken.length < rest.length then taken.length + 1 else taken.length
  ((decide (rest ≠ []), String.mk (taken.map fun b => Char.ofNat b.val)),
    { s with pos := s.pos + used })


/-- A Buffer whose `read` returns the bytes last written at the same offset:
from state `s`, writing any `n` bytes, seeking back to the offset `tell`
reported before the write and reading `n` bytes delivers the bytes written. -/
def ReadsBackWritten {σ : Type} (B : FileBuffer σ) (n : Nat) (s : σ) : Prop :=
  ∀ bs : List Byte, bs.length = n →
    (B.read n (B.seek (toInt64 (B.tell s)) SEEK_SET (B.write bs s).2)).1 = bs

/-- The sequence `pos = f.tell(); f.writeW(V, bigW); f.seek(pos); f.readW(bigR)`
and the value the read returns. -/
def writeThenReadBack {σ : Type} (B : FileBuffer σ) (w : Width) (V : Nat) (bigW bigR : Bool)
    (x0 : Nat) (f : File) (h : Heap σ) : Option Nat :=
  (File.tell B f h).bind fun r0 =>
    (File.writeW B w V bigW f r0.2).bind fun r1 =>
      (File.seek B (toInt64 r0.1) SEEK_SET f r1.2).bind fun r2 =>
        (File.readW B w bigR x0 f r2.2).map Prod.fst

/-- A heap with one memory-backed buffer, at address 0, with the given
reference count, content and cursor. -/
def memHeap (refs : Nat) (data : List Byte) (pos : Nat) : Heap MemState :=
  fun a => if a = 0 then some ⟨refs, ⟨data, pos⟩⟩ else none

/-- A buffer live at `p` has a count of at least one. -/
def PositiveAt {σ : Type} (h : Heap σ) (p : Nat) : Prop :=
  ∀ c, h p = some c → 1 ≤ c.ref_

/-! ## Bytes: lemmas -/

theorem toLE_length (n x : Nat) : (toLE n x).length = n := by
  induction n generalizing x with
  | zero => rfl
  | succ n ih => simp [toLE, ih]

theorem fromLE_toLE (n x : Nat) : fromLE (toLE n x) = x % 256 ^ n := by
  induction n generalizing x with
  | zero => simp [toLE, fromLE, Nat.mod_one]
  | succ n ih =>
    simp only [toLE, fromLE, byteOf, ih]
    rw [pow_succ, Nat.mul_comm (256 ^ n) 256, Nat.mod_mul]

theorem toLE_fromLE (bs : List Byte) : toLE bs.length (fromLE bs) = bs := by
  induction bs with
  | nil => rfl
  | cons b bs ih =>
    have hb : b.val < 256 := b.isLt
    have h1 : (b.val + 256 * fromLE bs) % 256 = b.val := by omega
    have h2 : (b.val + 256 * fromLE bs) / 256 = fromLE bs := by omega
    simp only [List.length_cons, toLE, fromLE, byteOf, h1, h2, ih]

theorem fromLE_lt (bs : List Byte) : fromLE bs < 256 ^ bs.length := by
  induction bs with
  | nil => simp [fromLE]
  | cons b bs ih =>
    have hb : b.val < 256 := b.isLt
    simp only [fromLE, List.length_cons, pow_succ]
    omega

theorem fromLE_inj (as bs : List Byte) (hlen : as.length = bs.length)
    (h : fromLE as = fromLE bs) : as = bs := by
  rw [← toLE_fromLE as, ← toLE_fromLE bs, hlen, h]

theorem store_full (mem got : List Byte) (h : got.length = mem.length) : store mem got = got := by
  unfold store
  rw [h, List.drop_length, List.append_nil, ← h, List.take_length]

theorem toLE_eq_bytesLSF (n x : Nat) : toLE n x = bytesLSF n x := by
  induction n generalizing x with
  | zero => rfl
  | succ n ih =>
    simp only [toLE, bytesLSF, List.range_succ_eq_map, List.map_cons, List.map_map, ih,
      pow_zero, Nat.div_one]
    congr 1
    apply List.map_congr_left
    intro i _
    simp only [Function.comp, pow_succ, Nat.div_div_eq_div_mul, Nat.mul_comm]

theorem bytesMSF_eq_reverse (n V : Nat) : bytesMSF n V = (bytesLSF n V).reverse := by
  unfold bytesMSF bytesLSF
  rw [← List.map_reverse]
  apply List.ext_getElem
  · simp
  · intro i h1 h2
    simp only [List.length_map, List.length_range] at h1
    simp [List.getElem_reverse, h1]

theorem fromLE_append (as bs : List Byte) :
    fromLE (as ++ bs) = fromLE as + 256 ^ as.length * fromLE bs := by
  induction as with
  | nil => simp [fromLE]
  | cons a as ih =>
    have h : fromLE (a :: as ++ bs) = a.val + 256 * fromLE (as ++ bs) := rfl
    rw [h, ih]
    simp only [fromLE, List.length_cons, pow_succ]
    ring

theorem valueBE_foldl (bs : List Byte) (acc : Nat) :
    bs.foldl (fun acc b => acc * 256 + b.val) acc = acc * 256 ^ bs.length + fromLE bs.reverse := by
  induction bs generalizing acc with
  | nil => simp [fromLE]
  | cons b bs ih =>
    simp only [List.foldl_cons, ih, List.reverse_cons, fromLE_append, List.length_reverse,
      List.length_cons, fromLE, pow_succ]
    ring

theorem valueBE_eq (bs : List Byte) : valueBE bs = fromLE bs.reverse := by
  unfold valueBE
  rw [valueBE_foldl]
  simp

theorem valueLE_eq (bs : List Byte) : valueLE bs = fromLE bs := by
  induction bs with
  | nil => rfl
  | cons b bs ih =>
    unfold valueLE at ih ⊢
    simp only [List.length_cons, List.range_succ_eq_map, List.map_cons, List.map_map,
      List.sum_cons, fromLE, ← ih, List.getD_cons_zero, pow_zero, Nat.mul_one]
    congr 1
    rw [← List.sum_map_mul_left]
    congr 1
    apply List.map_congr_left
    intro i _
    simp only [Function.comp, List.getD_cons_succ, pow_succ]
    ring

theorem toLE_byteswap (n x : Nat) : toLE n (byteswap n x) = (toLE n x).reverse := by
  unfold byteswap
  have h := toLE_fromLE (toLE n x).reverse
  rwa [List.length_reverse, toLE_length] at h

theorem byteswap_lt (n x : Nat) : byteswap n x < 256 ^ n := by
  unfold byteswap
  have h := fromLE_lt (toLE n x).reverse
  rwa [List.length_reverse, toLE_length] at h

theorem byteswap_byteswap (n x : Nat) (hx : x < 256 ^ n) : byteswap n (byteswap n x) = x := by
  show fromLE (toLE n (byteswap n x)).reverse = x
  rw [toLE_byteswap, List.reverse_reverse, fromLE_toLE, Nat.mod_eq_of_lt hx]

theorem byteswap_eq_valueBE (n x : Nat) : byteswap n x = valueBE (bytesLSF n x) := by
  rw [valueBE_eq, ← toLE_eq_bytesLSF]
  rfl


/-! ## Typed reads and writes -/

theorem store_length (mem got : List Byte) : (store mem got).length = mem.length := by
  unfold store
  simp only [List.length_take, List.length_append, List.length_drop]
  omega

theorem File.call_eq {σ α : Type} (this : File) (h : Heap σ) (m : σ → α × σ) (p : Nat)
    (c : Obj σ) (hp : this.file_ = some p) (hc : h p = some c) :
    this.call h m = some ((m c.buf).1, Function.update h p (some ⟨c.ref_, (m c.buf).2⟩)) := by
  unfold File.call
  rw [hp]
  simp only [hc]

theorem byteswap_fromLE (bs : List Byte) : byteswap bs.length (fromLE bs) = valueBE bs := by
  unfold byteswap
  rw [toLE_fromLE, valueBE_eq]

theorem writeW_eq {σ : Type} (B : FileBuffer σ) (w : Width) (V : Nat) (big : Bool) (this : File)
    (h : Heap σ) :
    File.writeW B w V big this h = this.call h fun s =>
      (decide ((B.write (if big then bytesMSF w.bytes V else bytesLSF w.bytes V) s).1 = w.bytes),
        (B.write (if big then bytesMSF w.bytes V else bytesLSF w.bytes V) s).2) := by
  cases w <;> cases big <;>
    simp only [File.writeW, File.write16, File.write32, File.write64, Width.bytes,
      _byteswap_ushort, _byteswap_ulong, _byteswap_uint64, toLE_byteswap, if_true, if_false,
      Bool.false_eq_true] <;>
    simp only [bytesMSF_eq_reverse, toLE_eq_bytesLSF]

theorem readW_eq {σ : Type} (B : FileBuffer σ) (w : Width) (big : Bool) (x0 : Nat) (this : File)
    (h : Heap σ) :
    File.readW B w big x0 this h = this.call h fun s =>
      (if big then valueBE (store (toLE w.bytes x0) (B.read w.bytes s).1)
        else valueLE (store (toLE w.bytes x0) (B.read w.bytes s).1), (B.read w.bytes s).2) := by
  have key : ∀ n (got : List Byte), byteswap n (fromLE (store (toLE n x0) got))
      = valueBE (store (toLE n x0) got) := by
    intro n got
    have hl : (store (toLE n x0) got).length = n := by rw [store_length, toLE_length]
    have := byteswap_fromLE (store (toLE n x0) got)
    rwa [hl] at this
  cases w <;> cases big <;>
    simp only [File.readW, File.read16, File.read32, File.read64, Width.bytes,
      _byteswap_ushort, _byteswap_ulong, _byteswap_uint64, key, valueLE_eq,
      if_true, if_false, Bool.false_eq_true]

theorem File.call_update {σ α : Type} (this : File) (h : Heap σ) (m : σ → α × σ) (p : Nat)
    (c : Obj σ) (hp : this.file_ = some p) :
    this.call (Function.update h p (some c)) m
      = some ((m c.buf).1, Function.update h p (some ⟨c.ref_, (m c.buf).2⟩)) := by
  rw [File.call_eq this _ m p c hp (Function.update_same p _ h), Function.update_idem]

theorem writeThenReadBack_eq {σ : Type} (B : FileBuffer σ) (w : Width) (V : Nat)
    (bigR : Bool) (x0 : Nat) (this : File) (h : Heap σ) (p : Nat) (c : Obj σ)
    (hp : this.file_ = some p) (hc : h p = some c) (hB : ReadsBackWritten B w.bytes c.buf) :
    writeThenReadBack B w V true bigR x0 this h
      = some (if bigR then valueBE (bytesMSF w.bytes V) else valueLE (bytesMSF w.bytes V)) := by
  have hlen : (bytesMSF w.bytes V).length = w.bytes := by simp [bytesMSF]
  have hb := hB (bytesMSF w.bytes V) hlen
  unfold writeThenReadBack
  rw [File.tell, File.call_eq this h _ p c hp hc]
  simp only [Option.some_bind, writeW_eq, readW_eq, File.seek, File.call_update _ _ _ p _ hp,
    Option.map_some', if_true, hb]
  rw [store_full _ _ (by rw [hlen, toLE_length])]


theorem pow_bytes (w : Width) : 2 ^ (8 * w.bytes) = 256 ^ w.bytes := by
  cases w <;> norm_num [Width.bytes]

theorem valueBE_bytesMSF (n V : Nat) (hV : V < 256 ^ n) : valueBE (bytesMSF n V) = V := by
  rw [valueBE_eq, bytesMSF_eq_reverse, List.reverse_reverse, ← toLE_eq_bytesLSF, fromLE_toLE,
    Nat.mod_eq_of_lt hV]

theorem memBuffer_readsBack (n : Nat) (data : List Byte) (pos : Nat) (h1 : pos < 2 ^ 63)
    (h2 : pos ≤ data.length) : ReadsBackWritten memBuffer n ⟨data, pos⟩ := by
  intro bs hbs
  have h3 : (toInt64 pos).toNat = pos := by
    unfold toInt64
    split <;> omega
  have h4 : pos - data.length = 0 := by omega
  simp only [memBuffer, SEEK_SET, if_true, h3, h4, List.replicate_zero, List.append_nil]
  rw [List.append_assoc, List.drop_append_of_le_length (by simp; omega)]
  simp [List.drop_take, hbs, h2, List.take_append_of_le_length]

/-- C1: for each width 16, 32, 64 and each value `V` of that width, over a
Buffer whose read returns the bytes last written at the same offset, writing
`V` with `big = true`, seeking back to the offset where the write started and
reading with `big = true` returns exactly `V`. -/
theorem write_big_read_big_roundtrip {σ : Type} (B : FileBuffer σ) (w : Width) (V : Nat)
    (x0 : Nat) (this : File) (h : Heap σ) (p : Nat) (c : Obj σ)
    (hV : V < 2 ^ (8 * w.bytes)) (hp : this.file_ = some p) (hc : h p = some c)
    (hB : ReadsBackWritten B w.bytes c.buf) :
    writeThenReadBack B w V true true x0 this h = some V := by
  rw [writeThenReadBack_eq B w V true x0 this h p c hp hc hB, if_pos rfl,
    valueBE_bytesMSF _ _ (by rwa [← pow_bytes])]

/-- C1 at a concrete input: the 32-bit value 0x11223344 written at offset 1 of a
memory-backed Buffer. -/
theorem write_big_read_big_roundtrip_witness :
    writeThenReadBack memBuffer Width.w32 0x11223344 true true 0 ⟨some 0⟩ (memHeap 1 [7, 7, 7, 7, 7] 1)
      = some 0x11223344 :=
  write_big_read_big_roundtrip memBuffer Width.w32 0x11223344 0 ⟨some 0⟩ (memHeap 1 [7, 7, 7, 7, 7] 1)
    0 ⟨1, ⟨[7, 7, 7, 7, 7], 1⟩⟩ (by decide) rfl rfl
    (memBuffer_readsBack _ _ _ (by decide) (by decide))

/-- C2: for each width 16, 32, 64 and each value `V` of that width, over a
Buffer whose read returns the bytes last written at the same offset, writing
`V` with `big = true` and reading the same bytes with `big = false` returns the
value whose bytes are those of `V` in reverse order; that value differs from `V`
exactly when the byte sequence of `V` is not a palindrome. -/
theorem write_big_read_little_swapped {σ : Type} (B : FileBuffer σ) (w : Width) (V : Nat)
    (x0 : Nat) (this : File) (h : Heap σ) (p : Nat) (c : Obj σ)
    (hV : V < 2 ^ (8 * w.bytes)) (hp : this.file_ = some p) (hc : h p = some c)
    (hB : ReadsBackWritten B w.bytes c.buf) :
    writeThenReadBack B w V true false x0 this h = some (valueLE (bytesLSF w.bytes V).reverse)
      ∧ (valueLE (bytesLSF w.bytes V).reverse ≠ V
          ↔ (bytesLSF w.bytes V).reverse ≠ bytesLSF w.bytes V) := by
  have hV' : V < 256 ^ w.bytes := by rwa [← pow_bytes]
  have hval : fromLE (bytesLSF w.bytes V) = V := by
    rw [← toLE_eq_bytesLSF, fromLE_toLE, Nat.mod_eq_of_lt hV']
  constructor
  · rw [writeThenReadBack_eq B w V false x0 this h p c hp hc hB, bytesMSF_eq_reverse]
    simp
  · rw [valueLE_eq]
    constructor
    · intro hne heq
      apply hne
      rw [heq, hval]
    · intro hne heq
      apply hne
      apply fromLE_inj _ _ (by simp)
      rw [heq, hval]

/-- C2 at a concrete input: the 16-bit value 0x1234 written to an empty
memory-backed Buffer. -/
theorem write_big_read_little_swapped_witness :
    writeThenReadBack memBuffer Width.w16 0x1234 true false 0 ⟨some 0⟩ (memHeap 1 [] 0)
        = some (valueLE (bytesLSF 2 0x1234).reverse)
      ∧ (valueLE (bytesLSF 2 0x1234).reverse ≠ 0x1234
          ↔ (bytesLSF 2 0x1234).reverse ≠ bytesLSF 2 0x1234) :=
  write_big_read_little_swapped memBuffer Width.w16 0x1234 0 ⟨some 0⟩ (memHeap 1 [] 0)
    0 ⟨1, ⟨[], 0⟩⟩ (by decide) rfl rfl (memBuffer_readsBack _ _ _ (by decide) (by decide))

/-- C3: on a Handle that holds a live Buffer, `File::write16/32/64` calls the
Buffer's `write` on the bytes of `V` least significant first when `big = false`
and most significant first when `big = true`, returns whether all of them were
written and leaves the Buffer in the state `write` gave; `File::read16/32/64`
calls the Buffer's `read` for the `w/8` bytes and returns the bytes the local
then holds taken as a little-endian integer when `big = false` and as a
big-endian integer when `big = true`; when the Buffer delivers all `w/8` bytes
these are the bytes delivered. -/
theorem typed_io_byte_order {σ : Type} (B : FileBuffer σ) (w : Width) (V : Nat) (big : Bool)
    (x0 : Nat) (this : File) (h : Heap σ) (p : Nat) (c : Obj σ) (hp : this.file_ = some p)
    (hc : h p = some c) :
    File.writeW B w V big this h
        = some (decide ((B.write (if big then bytesMSF w.bytes V else bytesLSF w.bytes V)
              c.buf).1 = w.bytes),
            Function.update h p (some ⟨c.ref_,
              (B.write (if big then bytesMSF w.bytes V else bytesLSF w.bytes V) c.buf).2⟩))
      ∧ File.readW B w big x0 this h
        = some (if big then valueBE (store (toLE w.bytes x0) (B.read w.bytes c.buf).1)
              else valueLE (store (toLE w.bytes x0) (B.read w.bytes c.buf).1),
            Function.update h p (some ⟨c.ref_, (B.read w.bytes c.buf).2⟩))
      ∧ ((B.read w.bytes c.buf).1.length = w.bytes →
          (File.readW B w big x0 this h).map Prod.fst
            = some (if big then valueBE (B.read w.bytes c.buf).1
                else valueLE (B.read w.bytes c.buf).1)) := by
  have hw := writeW_eq B w V big this h
  have hr := readW_eq B w big x0 this h
  rw [File.call_eq this h _ p c hp hc] at hw hr
  refine ⟨hw, hr, ?_⟩
  intro hlen
  rw [hr, store_full _ _ (by rw [hlen, toLE_length])]
  rfl

/-- C3 at concrete inputs: the 32-bit value 0x11223344 written to an empty
memory-backed Buffer leaves the bytes 11 22 33 44 with `big = true` and
44 33 22 11 with `big = false`; the bytes 11 22 33 44 read back give
0x11223344 with `big = true` and 0x44332211 with `big = false`. -/
theorem typed_io_byte_order_witness :
    ((File.writeW memBuffer Width.w32 0x11223344 true ⟨some 0⟩ (memHeap 1 [] 0)).map fun r =>
          (r.1, (r.2 0).map fun o => o.buf.data)) = some (true, some [0x11, 0x22, 0x33, 0x44])
      ∧ ((File.writeW memBuffer Width.w32 0x11223344 false ⟨some 0⟩ (memHeap 1 [] 0)).map fun r =>
          (r.1, (r.2 0).map fun o => o.buf.data)) = some (true, some [0x44, 0x33, 0x22, 0x11])
      ∧ (File.readW memBuffer Width.w32 true 0 ⟨some 0⟩
          (memHeap 1 [0x11, 0x22, 0x33, 0x44] 0)).map Prod.fst = some 0x11223344
      ∧ (File.readW memBuffer Width.w32 false 0 ⟨some 0⟩
          (memHeap 1 [0x11, 0x22, 0x33, 0x44] 0)).map Prod.fst = some 0x44332211 := by
  refine ⟨?_, ?_, ?_, ?_⟩
  · rw [(typed_io_byte_order memBuffer Width.w32 0x11223344 true 0 ⟨some 0⟩ (memHeap 1 [] 0)
      0 ⟨1, ⟨[], 0⟩⟩ rfl rfl).1]
    decide
  · rw [(typed_io_byte_order memBuffer Width.w32 0x11223344 false 0 ⟨some 0⟩ (memHeap 1 [] 0)
      0 ⟨1, ⟨[], 0⟩⟩ rfl rfl).1]
    decide
  · rw [(typed_io_byte_order memBuffer Width.w32 0 true 0 ⟨some 0⟩
      (memHeap 1 [0x11, 0x22, 0x33, 0x44] 0) 0 ⟨1, ⟨[0x11, 0x22, 0x33, 0x44], 0⟩⟩ rfl rfl).2.2
      (by decide)]
    decide
  · rw [(typed_io_byte_order memBuffer Width.w32 0 false 0 ⟨some 0⟩
      (memHeap 1 [0x11, 0x22, 0x33, 0x44] 0) 0 ⟨1, ⟨[0x11, 0x22, 0x33, 0x44], 0⟩⟩ rfl rfl).2.2
      (by decide)]
    decide

/-- C4: `FileBuffer::getc` returns `EOF` exactly when the 1-byte read does
not transfer one byte; otherwise it returns the byte read, an integer from 0 to
255 and so never the sentinel; a byte `0xFF` is returned as 255. -/
theorem getc_sentinel {σ : Type} (B : FileBuffer σ) (s : σ) :
    ((B.getc s).1 = EOF ↔ (B.read 1 s).1.length ≠ 1)
      ∧ (∀ chr : Byte, (B.read 1 s).1 = [chr] →
          (B.getc s).1 = (chr.val : Int) ∧ 0 ≤ (B.getc s).1 ∧ (B.getc s).1 ≤ 255
            ∧ (B.getc s).1 ≠ EOF)
      ∧ ((B.read 1 s).1 = [255] → (B.getc s).1 = 255)
      ∧ (B.getc s).2 = (B.read 1 s).2 := by
  unfold FileBuffer.getc
  rcases hr : B.read 1 s with ⟨got, s'⟩
  match got with
  | [] => simp [EOF]
  | [b] =>
    have hb : b.val < 256 := b.isLt
    simp only [EOF, List.length_singleton, ne_eq, not_true_eq_false, iff_false,
      List.cons.injEq, and_true]
    refine ⟨by omega, ?_, ?_⟩
    · intro chr hchr
      subst hchr
      omega
    · intro h255
      subst h255
      rfl
  | _ :: _ :: _ => simp [EOF]

/-- C5: for a Buffer on which `tell` after `seek(q, SEEK_SET)` reports `q`
and whose cursor is at a position that an `int64` offset can name,
`FileBuffer::size` returns what `tell` reports after `seek(0, SEEK_END)` and
leaves the cursor where it was. -/
theorem size_returns_end_and_restores {σ : Type} (B : FileBuffer σ) (s : σ)
    (hfaith : ∀ (q : Nat) (s' : σ), q < 2 ^ 63 → B.tell (B.seek (q : Int) SEEK_SET s') = q)
    (hpos : B.tell s < 2 ^ 63) :
    (B.size s).1 = B.tell (B.seek 0 SEEK_END s) ∧ B.tell (B.size s).2 = B.tell s := by
  have hconv : toInt64 (B.tell s) = ((B.tell s : Nat) : Int) := by
    unfold toInt64
    split <;> omega
  refine ⟨rfl, ?_⟩
  show B.tell (B.seek (toInt64 (B.tell s)) SEEK_SET (B.seek 0 SEEK_END s)) = B.tell s
  rw [hconv]
  exact hfaith _ _ hpos

/-- C5 at a concrete input: a memory-backed Buffer of three bytes with the
cursor at 1. -/
theorem size_returns_end_and_restores_witness :
    (memBuffer.size ⟨[1, 2, 3], 1⟩).1 = memBuffer.tell (memBuffer.seek 0 SEEK_END ⟨[1, 2, 3], 1⟩)
      ∧ memBuffer.tell (memBuffer.size ⟨[1, 2, 3], 1⟩).2 = memBuffer.tell ⟨[1, 2, 3], 1⟩ :=
  size_returns_end_and_restores memBuffer ⟨[1, 2, 3], 1⟩
    (fun q s' _ => by simp [memBuffer, SEEK_SET]) (by decide)

/-! ## Reference counts -/

theorem RefCounted.release_some {σ : Type} (h : Heap σ) (a : Nat) (c : Obj σ) (hc : h a = some c) :
    RefCounted.release (some a) h
      = some (Function.update h a (if c.ref_ - 1 = 0 then none else some ⟨c.ref_ - 1, c.buf⟩)) := by
  unfold RefCounted.release
  simp only [hc]
  split <;> rfl

theorem RefCounted.addref_some {σ : Type} (h : Heap σ) (p : Nat) (c : Obj σ) (hc : h p = some c) :
    RefCounted.addref p h = some (Function.update h p (some ⟨c.ref_ + 1, c.buf⟩)) := by
  unfold RefCounted.addref
  simp only [hc]

theorem handleCount_append (fs : List File) (a : File) (p : Nat) :
    handleCount (fs ++ [a]) p = handleCount fs p + (if a.file_ = some p then 1 else 0) := by
  unfold handleCount
  rw [List.countP_append, List.countP_singleton]
  simp

theorem handleCount_set (fs : List File) (i : Nat) (a b : File) (p : Nat)
    (hi : fs[i]? = some a) :
    handleCount (fs.set i b) p + (if a.file_ = some p then 1 else 0)
      = handleCount fs p + (if b.file_ = some p then 1 else 0) := by
  unfold handleCount
  induction fs generalizing i with
  | nil => simp at hi
  | cons f fs ih =>
    cases i with
    | zero =>
      simp only [List.getElem?_cons_zero, Option.some.injEq] at hi
      subst hi
      simp only [List.set_cons_zero, List.countP_cons, decide_eq_true_eq]
      omega
    | succ i =>
      simp only [List.getElem?_cons_succ] at hi
      have := ih i hi
      simp only [List.set_cons_succ, List.countP_cons, decide_eq_true_eq]
      omega

theorem handleCount_eraseIdx (fs : List File) (i : Nat) (a : File) (p : Nat)
    (hi : fs[i]? = some a) :
    handleCount (fs.eraseIdx i) p + (if a.file_ = some p then 1 else 0) = handleCount fs p := by
  unfold handleCount
  induction fs generalizing i with
  | nil => simp at hi
  | cons f fs ih =>
    cases i with
    | zero =>
      simp only [List.getElem?_cons_zero, Option.some.injEq] at hi
      subst hi
      simp only [List.eraseIdx_cons_zero, List.countP_cons, decide_eq_true_eq]
    | succ i =>
      simp only [List.getElem?_cons_succ] at hi
      have := ih i hi
      simp only [List.eraseIdx_cons_succ, List.countP_cons, decide_eq_true_eq]
      omega

theorem Counted.live {σ : Type} {w : World σ} (hInv : Counted w) {i : Nat} {a : File} {q : Nat}
    (hi : w.files[i]? = some a) (ha : a.file_ = some q) :
    ∃ c, w.heap q = some c ∧ c.ref_ = handleCount w.files q ∧ 1 ≤ c.ref_ := by
  have h1 := handleCount_eraseIdx w.files i a q hi
  rw [if_pos ha] at h1
  have h2 := hInv q
  unfold CountedAt at h2
  cases hq : w.heap q with
  | none =>
    rw [hq] at h2
    simp only at h2
    omega
  | some c =>
    rw [hq] at h2
    simp only at h2
    exact ⟨c, rfl, h2, by omega⟩

theorem CountedAt.same {σ : Type} {w : World σ} {p : Nat} (h : CountedAt w p) (heap' : Heap σ)
    (files' : List File) (hheap : heap' p = w.heap p)
    (hcnt : handleCount files' p = handleCount w.files p) : CountedAt ⟨heap', files'⟩ p := by
  unfold CountedAt at h ⊢
  simp only [hheap, hcnt]
  exact h

theorem CountedAt.incr {σ : Type} {w : World σ} {p : Nat} (h : CountedAt w p) (heap' : Heap σ)
    (files' : List File) (c : Obj σ) (hc : w.heap p = some c)
    (hheap : heap' p = some ⟨c.ref_ + 1, c.buf⟩)
    (hcnt : handleCount files' p = handleCount w.files p + 1) : CountedAt ⟨heap', files'⟩ p := by
  unfold CountedAt at h ⊢
  simp only [hheap, hcnt]
  simp only [hc] at h
  omega

theorem CountedAt.decr {σ : Type} {w : World σ} {p : Nat} (h : CountedAt w p) (heap' : Heap σ)
    (files' : List File) (c : Obj σ) (hc : w.heap p = some c)
    (hheap : heap' p = if c.ref_ - 1 = 0 then none else some ⟨c.ref_ - 1, c.buf⟩)
    (hcnt : handleCount files' p + 1 = handleCount w.files p) : CountedAt ⟨heap', files'⟩ p := by
  unfold CountedAt at h ⊢
  simp only [hc] at h
  simp only [hheap]
  split
  · rename_i c' heq
    split at heq
    · simp at heq
    · simp only [Option.some.injEq] at heq
      subst heq
      simp only
      omega
  · rename_i heq
    split at heq
    · omega
    · simp at heq

theorem PositiveAt.update {σ : Type} {h : Heap σ} {p : Nat} (hp : PositiveAt h p) (q : Nat)
    (v : Option (Obj σ)) (hv : ∀ c, v = some c → 1 ≤ c.ref_) :
    PositiveAt (Function.update h q v) p := by
  intro c hc
  simp only [Function.update_apply] at hc
  split at hc
  · exact hv c hc
  · exact hp c hc

theorem positive_decr {σ : Type} (c : Obj σ) :
    ∀ c', (if c.ref_ - 1 = 0 then none else some (⟨c.ref_ - 1, c.buf⟩ : Obj σ)) = some c' →
      1 ≤ c'.ref_ := by
  intro c' hc'
  split at hc'
  · simp at hc'
  · simp only [Option.some.injEq] at hc'
    subst hc'
    simp only
    omega

theorem positive_incr {σ : Type} (c : Obj σ) :
    ∀ c', some (⟨c.ref_ + 1, c.buf⟩ : Obj σ) = some c' → 1 ≤ c'.ref_ := by
  intro c' hc'
  simp only [Option.some.injEq] at hc'
  subst hc'
  simp

theorem World.step_counted {σ : Type} (w : World σ) (op : Op) (hInv : Counted w)
    (hs : op.inScope w.files.length = true) :
    ∃ w', w.step op = some w' ∧ Counted w' ∧ (∀ p, PositiveAt w.heap p → PositiveAt w'.heap p)
      ∧ w'.files.length = op.scopeAfter w.files.length := by
  cases op with
  | ctor_copy j =>
    simp only [Op.inScope, decide_eq_true_eq] at hs
    have hj : w.files[j]? = some w.files[j] := List.getElem?_eq_getElem hs
    generalize w.files[j] = a at hj
    unfold World.step
    simp only [hj, File.ctor_copy]
    cases ha : a.file_ with
    | none =>
      refine ⟨_, rfl, ?_, fun p hp => hp, by simp [Op.scopeAfter]⟩
      intro p
      exact (hInv p).same _ _ rfl (by simp [handleCount_append])
    | some q =>
      obtain ⟨c, hc, hcnt, hpos⟩ := hInv.live hj ha
      simp only [RefCounted.addref_some _ _ _ hc, Option.map_some']
      refine ⟨_, rfl, ?_, fun p hp => hp.update _ _ (positive_incr c), by simp [Op.scopeAfter]⟩
      intro p
      by_cases hpq : p = q
      · subst hpq
        exact (hInv p).incr _ _ c hc (by simp) (by simp [handleCount_append])
      · have hqp : ¬ q = p := fun e => hpq e.symm
        exact (hInv p).same _ _ (by simp [Function.update_apply, hpq])
          (by simp [handleCount_append, hqp])
  | ctor_move j =>
    simp only [Op.inScope, decide_eq_true_eq] at hs
    have hj : w.files[j]? = some w.files[j] := List.getElem?_eq_getElem hs
    generalize w.files[j] = a at hj
    unfold World.step
    simp only [hj, File.ctor_move]
    refine ⟨_, rfl, ?_, fun p hp => hp, by simp [Op.scopeAfter]⟩
    intro p
    have h2 := handleCount_set w.files j a ⟨none⟩ p hj
    simp only [reduceCtorEq, if_false] at h2
    refine (hInv p).same _ _ rfl ?_
    rw [handleCount_append]
    simp only
    omega
  | release i =>
    simp only [Op.inScope, decide_eq_true_eq] at hs
    have hi : w.files[i]? = some w.files[i] := List.getElem?_eq_getElem hs
    generalize w.files[i] = a at hi
    unfold World.step
    simp only [hi, File.release]
    cases ha : a.file_ with
    | none =>
      simp only [RefCounted.release, Option.map_some']
      refine ⟨_, rfl, ?_, fun p hp => hp, by simp [Op.scopeAfter]⟩
      intro p
      have h2 := handleCount_set w.files i a ⟨none⟩ p hi
      simp only [ha, reduceCtorEq, if_false] at h2
      exact (hInv p).same _ _ rfl (by omega)
    | some q =>
      obtain ⟨c, hc, hcnt, hpos⟩ := hInv.live hi ha
      simp only [RefCounted.release_some _ _ _ hc, Option.map_some']
      refine ⟨_, rfl, ?_, fun p hp => hp.update _ _ (positive_decr c), by simp [Op.scopeAfter]⟩
      intro p
      have h2 := handleCount_set w.files i a ⟨none⟩ p hi
      simp only [ha, reduceCtorEq, if_false, Option.some.injEq] at h2
      by_cases hpq : p = q
      · subst hpq
        simp only [if_true] at h2
        exact (hInv p).decr _ _ c hc (by simp) (by omega)
      · have hqp : ¬ q = p := fun e => hpq e.symm
        simp only [hqp, if_false] at h2
        exact (hInv p).same _ _ (by simp [Function.update_apply, hpq]) (by omega)
  | dtor i =>
    simp only [Op.inScope, decide_eq_true_eq] at hs
    have hi : w.files[i]? = some w.files[i] := List.getElem?_eq_getElem hs
    generalize w.files[i] = a at hi
    unfold World.step
    simp only [hi, File.dtor]
    have hlen : (w.files.eraseIdx i).length = w.files.length - 1 := by
      rw [List.length_eraseIdx]
      simp [hs]
    cases ha : a.file_ with
    | none =>
      simp only [RefCounted.release, Option.map_some']
      refine ⟨_, rfl, ?_, fun p hp => hp, by simp [Op.scopeAfter, hlen]⟩
      intro p
      have h2 := handleCount_eraseIdx w.files i a p hi
      simp only [ha, reduceCtorEq, if_false] at h2
      exact (hInv p).same _ _ rfl (by omega)
    | some q =>
      obtain ⟨c, hc, hcnt, hpos⟩ := hInv.live hi ha
      simp only [RefCounted.release_some _ _ _ hc, Option.map_some']
      refine ⟨_, rfl, ?_, fun p hp => hp.update _ _ (positive_decr c),
        by simp [Op.scopeAfter, hlen]⟩
      intro p
      have h2 := handleCount_eraseIdx w.files i a p hi
      simp only [ha, Option.some.injEq] at h2
      by_cases hpq : p = q
      · subst hpq
        simp only [if_true] at h2
        exact (hInv p).decr _ _ c hc (by simp) (by omega)
      · have hqp : ¬ q = p := fun e => hpq e.symm
        simp only [hqp, if_false] at h2
        exact (hInv p).same _ _ (by simp [Function.update_apply, hpq]) (by omega)
  | assign_copy i j =>
    simp only [Op.inScope, Bool.and_eq_true, decide_eq_true_eq] at hs
    have hi : w.files[i]? = some w.files[i] := List.getElem?_eq_getElem hs.1
    have hj : w.files[j]? = some w.files[j] := List.getElem?_eq_getElem hs.2
    generalize w.files[i] = a at hi
    generalize w.files[j] = b at hj
    unfold World.step
    simp only [hi, hj, File.assign_copy]
    by_cases hab : a.file_ = b.file_
    · simp only [hab, if_true, Option.map_some']
      refine ⟨_, rfl, ?_, fun p hp => hp, by simp [Op.scopeAfter]⟩
      intro p
      have h2 := handleCount_set w.files i a a p hi
      exact (hInv p).same _ _ rfl (by omega)
    · simp only [hab, if_false]
      cases ha : a.file_ with
      | none =>
        cases hb : b.file_ with
        | none => exact absurd (ha.trans hb.symm) hab
        | some r =>
          obtain ⟨cr, hcr, -, -⟩ := hInv.live hj hb
          simp only [RefCounted.release, RefCounted.addref_some _ _ _ hcr, Option.map_some']
          refine ⟨_, rfl, ?_, fun p hp => hp.update _ _ (positive_incr cr),
            by simp [Op.scopeAfter]⟩
          intro p
          have h2 := handleCount_set w.files i a ⟨some r⟩ p hi
          simp only [ha, reduceCtorEq, if_false, Option.some.injEq] at h2
          by_cases hpr : p = r
          · subst hpr
            simp only [if_true] at h2
            exact (hInv p).incr _ _ cr hcr (by simp) (by omega)
          · have hrp : ¬ r = p := fun e => hpr e.symm
            simp only [hrp, if_false] at h2
            exact (hInv p).same _ _ (by simp [Function.update_apply, hpr]) (by omega)
      | some q =>
        obtain ⟨cq, hcq, -, -⟩ := hInv.live hi ha
        simp only [RefCounted.release_some _ _ _ hcq]
        cases hb : b.file_ with
        | none =>
          simp only [Option.map_some']
          refine ⟨_, rfl, ?_, fun p hp => hp.update _ _ (positive_decr cq),
            by simp [Op.scopeAfter]⟩
          intro p
          have h2 := handleCount_set w.files i a ⟨none⟩ p hi
          simp only [ha, reduceCtorEq, if_false, Option.some.injEq] at h2
          by_cases hpq : p = q
          · subst hpq
            simp only [if_true] at h2
            exact (hInv p).decr _ _ cq hcq (by simp) (by omega)
          · have hqp : ¬ q = p := fun e => hpq e.symm
            simp only [hqp, if_false] at h2
            exact (hInv p).same _ _ (by simp [Function.update_apply, hpq]) (by omega)
        | some r =>
          obtain ⟨cr, hcr, -, -⟩ := hInv.live hj hb
          have hqr : q ≠ r := by
            intro e
            apply hab
            rw [ha, hb, e]
          have hcr' : Function.update w.heap q
              (if cq.ref_ - 1 = 0 then none else some ⟨cq.ref_ - 1, cq.buf⟩) r = some cr := by
            rw [Function.update_noteq (Ne.symm hqr), hcr]
          simp only [RefCounted.addref_some _ _ _ hcr', Option.map_some']
          refine ⟨_, rfl, ?_,
            fun p hp => (hp.update _ _ (positive_decr cq)).update _ _ (positive_incr cr),
            by simp [Op.scopeAfter]⟩
          intro p
          have h2 := handleCount_set w.files i a ⟨some r⟩ p hi
          simp only [ha, Option.some.injEq] at h2
          by_cases hpq : p = q
          · subst hpq
            have hrp : ¬ r = p := fun e => hqr e.symm
            simp only [if_true, hrp, if_false] at h2
            exact (hInv p).decr _ _ cq hcq (by simp [Function.update_apply, hqr]) (by omega)
          · have hqp : ¬ q = p := fun e => hpq e.symm
            by_cases hpr : p = r
            · subst hpr
              simp only [hqp, if_true, if_false] at h2
              exact (hInv p).incr _ _ cr hcr (by simp) (by omega)
            · have hrp : ¬ r = p := fun e => hpr e.symm
              simp only [hqp, hrp, if_false] at h2
              exact (hInv p).same _ _ (by simp [Function.update_apply, hpq, hpr]) (by omega)
  | assign_move i j =>
    simp only [Op.inScope, Bool.and_eq_true, decide_eq_true_eq] at hs
    have hi : w.files[i]? = some w.files[i] := List.getElem?_eq_getElem hs.1
    have hj : w.files[j]? = some w.files[j] := List.getElem?_eq_getElem hs.2
    generalize w.files[i] = a at hi
    generalize w.files[j] = b at hj
    unfold World.step
    simp only [hi, hj, File.assign_move]
    by_cases hab : a.file_ = b.file_
    · simp only [hab, if_true, Option.map_some']
      refine ⟨_, rfl, ?_, fun p hp => hp, by simp [Op.scopeAfter]⟩
      intro p
      have h2 := handleCount_set w.files i a a p hi
      have hj' : (w.files.set i a)[j]? = some b := by
        rw [List.getElem?_set]
        split
        · rename_i hij
          subst hij
          rw [hi] at hj
          simp only [hs.1, if_true]
          exact hj
        · exact hj
      have h3 := handleCount_set (w.files.set i a) j b b p hj'
      exact (hInv p).same _ _ rfl (by omega)
    · simp only [hab, if_false]
      have hij : i ≠ j := by
        intro e
        subst e
        rw [hi] at hj
        simp only [Option.some.injEq] at hj
        exact hab (by rw [hj])
      have hj' : (w.files.set i ⟨b.file_⟩)[j]? = some b := by
        rw [List.getElem?_set, if_neg hij]
        exact hj
      cases ha : a.file_ with
      | none =>
        simp only [RefCounted.release, Option.map_some']
        refine ⟨_, rfl, ?_, fun p hp => hp, by simp [Op.scopeAfter]⟩
        intro p
        have h2 := handleCount_set w.files i a ⟨b.file_⟩ p hi
        have h3 := handleCount_set (w.files.set i ⟨b.file_⟩) j b ⟨none⟩ p hj'
        simp only [ha, reduceCtorEq, if_false] at h2 h3
        exact (hInv p).same _ _ rfl (by omega)
      | some q =>
        obtain ⟨cq, hcq, -, -⟩ := hInv.live hi ha
        simp only [RefCounted.release_some _ _ _ hcq, Option.map_some']
        refine ⟨_, rfl, ?_, fun p hp => hp.update _ _ (positive_decr cq),
          by simp [Op.scopeAfter]⟩
        intro p
        have h2 := handleCount_set w.files i a ⟨b.file_⟩ p hi
        have h3 := handleCount_set (w.files.set i ⟨b.file_⟩) j b ⟨none⟩ p hj'
        simp only [ha, reduceCtorEq, if_false, Option.some.injEq] at h2 h3
        by_cases hpq : p = q
        · subst hpq
          simp only [if_true] at h2
          exact (hInv p).decr _ _ cq hcq (by simp) (by omega)
        · have hqp : ¬ q = p := fun e => hpq e.symm
          simp only [hqp, if_false] at h2
          exact (hInv p).same _ _ (by simp [Function.update_apply, hpq]) (by omega)

theorem World.run_counted {σ : Type} (ops : List Op) (w : World σ) (hInv : Counted w)
    (hs : opsInScope ops w.files.length = true) :
    ∃ w', World.run ops w = some w' ∧ Counted w'
      ∧ (∀ p, PositiveAt w.heap p → PositiveAt w'.heap p) := by
  induction ops generalizing w with
  | nil => exact ⟨w, rfl, hInv, fun _ hp => hp⟩
  | cons op ops ih =>
    simp only [opsInScope, Bool.and_eq_true] at hs
    obtain ⟨w1, hstep, hInv1, hpos1, hlen1⟩ := w.step_counted op hInv hs.1
    obtain ⟨w2, hrun, hInv2, hpos2⟩ := ih w1 hInv1 (by rw [hlen1]; exact hs.2)
    refine ⟨w2, ?_, hInv2, fun p hp => hpos2 p (hpos1 p hp)⟩
    simp only [World.run, hstep, hrun]

theorem File.ctor_copy_shares {σ : Type} (b : File) (h : Heap σ) (p : Nat) (c : Obj σ)
    (hb : b.file_ = some p) (hc : h p = some c) :
    File.ctor_copy b h = some (⟨some p⟩, Function.update h p (some ⟨c.ref_ + 1, c.buf⟩)) := by
  unfold File.ctor_copy
  simp only [hb, RefCounted.addref_some _ _ _ hc, Option.map_some']

theorem File.assign_copy_shares {σ : Type} (a b : File) (h : Heap σ) (p : Nat) (c : Obj σ)
    (hb : b.file_ = some p) (hc : h p = some c) (hne : a.file_ ≠ some p)
    (ha : ∀ q, a.file_ = some q → (h q).isSome) :
    ∃ h', File.assign_copy a b h = some (⟨some p⟩, h') ∧ h' p = some ⟨c.ref_ + 1, c.buf⟩ := by
  unfold File.assign_copy
  rw [hb, if_neg hne]
  cases haq : a.file_ with
  | none =>
    simp only [RefCounted.release, RefCounted.addref_some _ _ _ hc, Option.map_some']
    exact ⟨_, rfl, by simp⟩
  | some q =>
    have hqp : q ≠ p := fun e => hne (by rw [haq, e])
    obtain ⟨cq, hcq⟩ := Option.isSome_iff_exists.mp (ha q haq)
    have hc' : Function.update h q
        (if cq.ref_ - 1 = 0 then none else some ⟨cq.ref_ - 1, cq.buf⟩) p = some c := by
      rw [Function.update_noteq (Ne.symm hqp), hc]
    simp only [RefCounted.release_some _ _ _ hcq, RefCounted.addref_some _ _ _ hc',
      Option.map_some']
    exact ⟨_, rfl, by simp⟩

theorem memHeap_counted (n : Nat) (data : List Byte) (pos : Nat) (files : List File)
    (h0 : handleCount files 0 = n) (h1 : ∀ f ∈ files, f.file_ = some 0 ∨ f.file_ = none) :
    Counted (⟨memHeap n data pos, files⟩ : World MemState) := by
  intro p
  unfold CountedAt memHeap
  by_cases hp : p = 0
  · subst hp
    simp [h0]
  · simp only [hp, if_false]
    unfold handleCount
    rw [List.countP_eq_zero]
    intro f hf
    rcases h1 f hf with h | h <;> simp [h, Ne.symm hp]

/-- C6: from a state in which every Buffer's reference count equals the number
of Handles referring to it, every sequence of copy construction, copy
assignment, move construction, move assignment, `release()` and destruction
runs to a state in which that equality holds again; there every Buffer a
Handle refers to is alive, and a Buffer that was alive with a positive count
is destroyed exactly when no Handle refers to it any more, its count being
positive otherwise. Copy construction and copy assignment make the new Handle
refer to the source's Buffer and add one to its count. -/
theorem refcount_invariant {σ : Type} (w : World σ) (ops : List Op) (hInv : Counted w)
    (hs : opsInScope ops w.files.length = true) :
    (∃ w', World.run ops w = some w' ∧ Counted w'
      ∧ (∀ f ∈ w'.files, ∀ p, f.file_ = some p → (w'.heap p).isSome)
      ∧ (∀ p c, w.heap p = some c → 1 ≤ c.ref_ →
          (w'.heap p = none ↔ handleCount w'.files p = 0)
            ∧ ∀ c', w'.heap p = some c' → 1 ≤ c'.ref_))
      ∧ (∀ (b : File) p c, b.file_ = some p → w.heap p = some c →
          File.ctor_copy b w.heap
              = some (⟨some p⟩, Function.update w.heap p (some ⟨c.ref_ + 1, c.buf⟩))
            ∧ ∀ a : File, a.file_ ≠ some p → (∀ q, a.file_ = some q → (w.heap q).isSome) →
              ∃ h', File.assign_copy a b w.heap = some (⟨some p⟩, h')
                ∧ h' p = some ⟨c.ref_ + 1, c.buf⟩) := by
  obtain ⟨w', hrun, hInv', hpos⟩ := World.run_counted ops w hInv hs
  refine ⟨⟨w', hrun, hInv', ?_, ?_⟩, ?_⟩
  · intro f hf p hfp
    obtain ⟨i, hi, hget⟩ := List.getElem_of_mem hf
    have hi' : w'.files[i]? = some f := by rw [List.getElem?_eq_getElem hi, hget]
    obtain ⟨c, hc, -, -⟩ := hInv'.live hi' hfp
    simp [hc]
  · intro p c hc hpos1
    have hP : PositiveAt w'.heap p := hpos p (by
      intro c0 hc0
      rw [hc] at hc0
      simp only [Option.some.injEq] at hc0
      subst hc0
      exact hpos1)
    have hC := hInv' p
    unfold CountedAt at hC
    refine ⟨?_, hP⟩
    cases hw : w'.heap p with
    | none =>
      rw [hw] at hC
      simp only at hC
      simp [hC]
    | some c' =>
      rw [hw] at hC
      simp only at hC
      have := hP c' hw
      simp only [reduceCtorEq, false_iff]
      omega
  · intro b p c hb hc
    exact ⟨File.ctor_copy_shares b w.heap p c hb hc,
      fun a hne ha => File.assign_copy_shares a b w.heap p c hb hc hne ha⟩

/-- C6 at a concrete input: one Handle on one Buffer, copied, moved, assigned,
released and destroyed until no Handle is left. -/
theorem refcount_invariant_witness :
    (∃ w', World.run [Op.ctor_copy 0, Op.ctor_move 1, Op.assign_move 0 2, Op.release 2,
          Op.assign_copy 1 0, Op.dtor 0, Op.dtor 1, Op.dtor 0]
        (⟨memHeap 1 [] 0, [⟨some 0⟩]⟩ : World MemState) = some w' ∧ Counted w'
      ∧ (∀ f ∈ w'.files, ∀ p, f.file_ = some p → (w'.heap p).isSome)
      ∧ (∀ p c, memHeap 1 [] 0 p = some c → 1 ≤ c.ref_ →
          (w'.heap p = none ↔ handleCount w'.files p = 0)
            ∧ ∀ c', w'.heap p = some c' → 1 ≤ c'.ref_))
      ∧ (∀ (b : File) p c, b.file_ = some p → memHeap 1 [] 0 p = some c →
          File.ctor_copy b (memHeap 1 [] 0)
              = some (⟨some p⟩, Function.update (memHeap 1 [] 0) p (some ⟨c.ref_ + 1, c.buf⟩))
            ∧ ∀ a : File, a.file_ ≠ some p →
              (∀ q, a.file_ = some q → (memHeap 1 [] 0 q).isSome) →
              ∃ h', File.assign_copy a b (memHeap 1 [] 0) = some (⟨some p⟩, h')
                ∧ h' p = some ⟨c.ref_ + 1, c.buf⟩) :=
  refcount_invariant (⟨memHeap 1 [] 0, [⟨some 0⟩]⟩ : World MemState) _
    (memHeap_counted 1 [] 0 _ (by decide) (by decide)) (by decide)

/-- C7, as stated, fails: two Handles share the buffer at address 0 (count 2);
after the move assignment of one to the other the guard has returned early, the
source still refers to the buffer and is not empty. -/
theorem move_assign_shared_source_not_emptied :
    ((File.assign_move ⟨some 0⟩ ⟨some 0⟩ (memHeap 2 [] 0)).map fun r =>
        (r.1, r.2.1, r.2.1.operator_bool, (r.2.2 0).map Obj.ref_))
      = some (⟨some 0⟩, ⟨some 0⟩, true, some 2) := by
  decide

/-- C7, amended: move construction, and move assignment between Handles whose
pointers differ (the destination being empty or holding a live Buffer), leave
the destination referring to the Buffer the source referred to, that Buffer
as it was (count included), and the source empty; a move assignment between
Handles that hold the same pointer changes nothing. -/
theorem move_transfers_ownership {σ : Type} (dst src : File) (h : Heap σ)
    (hdst : ∀ q, dst.file_ = some q → (h q).isSome) :
    ((File.ctor_move src).1.file_ = src.file_ ∧ (File.ctor_move src).2.operator_bool = false)
      ∧ ∃ r, File.assign_move dst src h = some r
        ∧ (dst.file_ ≠ src.file_ →
            r.1.file_ = src.file_ ∧ r.2.1.operator_bool = false
              ∧ ∀ p, src.file_ = some p → r.2.2 p = h p)
        ∧ (dst.file_ = src.file_ → r = (dst, src, h)) := by
  refine ⟨⟨rfl, rfl⟩, ?_⟩
  unfold File.assign_move
  by_cases hds : dst.file_ = src.file_
  · rw [if_pos hds]
    exact ⟨_, rfl, fun hne => absurd hds hne, fun _ => rfl⟩
  · rw [if_neg hds]
    cases hd : dst.file_ with
    | none =>
      simp only [RefCounted.release, Option.map_some']
      exact ⟨_, rfl, fun _ => ⟨rfl, rfl, fun _ _ => rfl⟩, fun he => absurd (hd.trans he) hds⟩
    | some q =>
      obtain ⟨cq, hcq⟩ := Option.isSome_iff_exists.mp (hdst q hd)
      simp only [RefCounted.release_some _ _ _ hcq, Option.map_some']
      refine ⟨_, rfl, fun _ => ⟨rfl, rfl, ?_⟩, fun he => absurd (hd.trans he) hds⟩
      intro p hsp
      have hqp : p ≠ q := fun e => hds (by rw [hd, hsp, e])
      simp only [Function.update_noteq hqp]

/-- C7, amended, at a concrete input: an empty destination and a source holding
the buffer at address 0. -/
theorem move_transfers_ownership_witness :
    ((File.ctor_move ⟨some 0⟩).1.file_ = (⟨some 0⟩ : File).file_
        ∧ (File.ctor_move ⟨some 0⟩).2.operator_bool = false)
      ∧ ∃ r, File.assign_move ⟨none⟩ ⟨some 0⟩ (memHeap 1 [] 0) = some r
        ∧ ((⟨none⟩ : File).file_ ≠ (⟨some 0⟩ : File).file_ →
            r.1.file_ = (⟨some 0⟩ : File).file_ ∧ r.2.1.operator_bool = false
              ∧ ∀ p, (⟨some 0⟩ : File).file_ = some p → r.2.2 p = memHeap 1 [] 0 p)
        ∧ ((⟨none⟩ : File).file_ = (⟨some 0⟩ : File).file_
            → r = (⟨none⟩, ⟨some 0⟩, memHeap 1 [] 0)) :=
  move_transfers_ownership ⟨none⟩ ⟨some 0⟩ (memHeap 1 [] 0) (by simp)

/-- C8: `File::release` on a Handle that holds a live Buffer decrements that
Buffer's count once (destroying it at zero) and leaves the Handle empty; on a
Handle that is already empty (default-constructed, moved-from or released
before) `release` and the destructor change nothing and have a result on
every heap, so no Buffer is dereferenced; releasing twice is releasing once. -/
theorem release_guarded_idempotent {σ : Type} (this : File) (h : Heap σ) :
    (this.file_ = none → File.release this h = some (⟨none⟩, h) ∧ File.dtor this h = some h)
      ∧ (File.release File.ctor h = some (⟨none⟩, h)
          ∧ File.release (File.ctor_move this).2 h = some (⟨none⟩, h))
      ∧ (∀ p c, this.file_ = some p → h p = some c →
          File.release this h = some (⟨none⟩,
            Function.update h p (if c.ref_ - 1 = 0 then none else some ⟨c.ref_ - 1, c.buf⟩)))
      ∧ (∀ r, File.release this h = some r →
          r.1.operator_bool = false ∧ File.release r.1 r.2 = some r
            ∧ File.dtor r.1 r.2 = some r.2) := by
  refine ⟨?_, ⟨rfl, rfl⟩, ?_, ?_⟩
  · intro hn
    simp only [File.release, File.dtor, hn, RefCounted.release, Option.map_some', and_self]
  · intro p c hp hc
    simp only [File.release, hp, RefCounted.release_some _ _ _ hc, Option.map_some']
  · intro r hr
    unfold File.release at hr
    cases hrel : RefCounted.release this.file_ h with
    | none => simp [hrel] at hr
    | some h' =>
      simp only [hrel, Option.map_some', Option.some.injEq] at hr
      subst hr
      exact ⟨rfl, rfl, rfl⟩

/-! ## LineIterator -/

theorem File.getline_eq {σ : Type} (G : String → σ → (Bool × String) × σ)
    (E : String → Option (Bool × String)) (this : File)
    (line : String) (h : Heap σ) (p : Nat) (c : Obj σ) (hp : this.file_ = some p)
    (hc : h p = some c) :
    File.getline G E this line h
      = some ((G line c.buf).1, Function.update h p (some ⟨c.ref_, (G line c.buf).2⟩)) := by
  unfold File.getline
  simp only [hp]
  exact File.call_eq this h (G line) p c hp hc

theorem File.getline_empty {σ : Type} (G : String → σ → (Bool × String) × σ)
    (E : String → Option (Bool × String)) (this : File) (line : String) (h : Heap σ)
    (hn : this.file_ = none) :
    File.getline G E this line h = (E line).map fun r => (r, h) := by
  unfold File.getline
  simp only [hn]

theorem LineIterator.operator_ne_end (it : LineIterator) :
    it.operator_ne LineIterator.ctor = it.file_.operator_bool := by
  unfold LineIterator.operator_ne LineIterator.ctor File.ctor File.operator_bool
  cases it.file_.file_ <;> rfl

theorem LineIterator.operator_incr_active {σ : Type} (G : String → σ → (Bool × String) × σ)
    (E : String → Option (Bool × String))
    (it : LineIterator) (h : Heap σ) (q : Nat) (cq : Obj σ) (hq : it.file_.file_ = some q)
    (hcq : h q = some cq) :
    ∃ h', LineIterator.operator_incr G E it h
        = some (⟨if (G it.line_ cq.buf).1.1 then it.file_ else ⟨none⟩, (G it.line_ cq.buf).1.2⟩, h')
      ∧ ((G it.line_ cq.buf).1.1 = true →
          h' = Function.update h q (some ⟨cq.ref_, (G it.line_ cq.buf).2⟩)) := by
  unfold LineIterator.operator_incr
  rw [File.getline_eq G E it.file_ it.line_ h q cq hq hcq]
  rcases hG : G it.line_ cq.buf with ⟨⟨ok, line⟩, s'⟩
  cases ok with
  | true => exact ⟨_, rfl, fun _ => rfl⟩
  | false =>
    simp only [File.release, hq]
    rw [RefCounted.release_some _ q ⟨cq.ref_, s'⟩ (by simp)]
    exact ⟨_, rfl, fun hf => by simp at hf⟩

theorem LineIterator.operator_incr_exhausted {σ : Type} (G : String → σ → (Bool × String) × σ)
    (E : String → Option (Bool × String)) (it : LineIterator) (h : Heap σ)
    (hex : it.file_.file_ = none) :
    LineIterator.operator_incr G E it h
      = (E it.line_).map fun r => ((⟨it.file_, r.2⟩ : LineIterator), h) := by
  unfold LineIterator.operator_incr
  rw [File.getline_empty G E it.file_ it.line_ h hex]
  cases hE : E it.line_ with
  | none => rfl
  | some r =>
    rcases r with ⟨ok, line⟩
    have hf : it.file_ = ⟨none⟩ := by
      cases hfile : it.file_ with
      | mk fp =>
        rw [hfile] at hex
        simp only at hex
        rw [hex]
    cases ok with
    | true => rfl
    | false =>
      simp only [Option.map_some', File.release, hex, RefCounted.release, hf]

theorem LineIterator.loop_active {σ : Type} (G : String → σ → (Bool × String) × σ)
    (E : String → Option (Bool × String)) (k : Nat) :
    ∀ (fuel : Nat) (it : LineIterator) (h : Heap σ) (q : Nat) (cq : Obj σ),
      it.file_.file_ = some q → h q = some cq → getlineCount G k it.line_ cq.buf = true →
      k + 2 ≤ fuel →
      ∃ it' h', LineIterator.loop G E fuel it h
          = some (it.line_ :: getlineLines G k it.line_ cq.buf, it', h')
        ∧ it'.file_.file_ = none := by
  induction k with
  | zero =>
    intro fuel it h q cq hq hcq hk hfuel
    obtain ⟨fuel, rfl⟩ : ∃ f, fuel = f + 2 := ⟨fuel - 2, by omega⟩
    obtain ⟨h', hinc, -⟩ := LineIterator.operator_incr_active G E it h q cq hq hcq
    simp only [getlineCount, Bool.not_eq_true'] at hk
    simp only [hk, Bool.false_eq_true, if_false] at hinc
    refine ⟨⟨⟨none⟩, (G it.line_ cq.buf).1.2⟩, h', ?_, rfl⟩
    show LineIterator.loop G E (fuel + 1 + 1) it h = _
    rw [LineIterator.loop]
    simp only [LineIterator.operator_ne_end, File.operator_bool, hq, Option.isSome_some, if_true,
      hinc, LineIterator.loop, Option.isSome_none, Bool.false_eq_true, if_false,
      Option.map_some', LineIterator.operator_deref, getlineLines]
  | succ k ih =>
    intro fuel it h q cq hq hcq hk hfuel
    obtain ⟨fuel, rfl⟩ : ∃ f, fuel = f + 1 := ⟨fuel - 1, by omega⟩
    obtain ⟨h', hinc, hh'⟩ := LineIterator.operator_incr_active G E it h q cq hq hcq
    simp only [getlineCount, Bool.and_eq_true] at hk
    simp only [hk.1, if_true] at hinc
    rw [hh' hk.1] at hinc
    obtain ⟨it', h'', hloop, hex⟩ := ih fuel ⟨it.file_, (G it.line_ cq.buf).1.2⟩
      (Function.update h q (some ⟨cq.ref_, (G it.line_ cq.buf).2⟩)) q
      ⟨cq.ref_, (G it.line_ cq.buf).2⟩ hq (by simp) hk.2 (by omega)
    refine ⟨it', h'', ?_, hex⟩
    rw [LineIterator.loop]
    simp only [LineIterator.operator_ne_end, File.operator_bool, hq, Option.isSome_some, if_true,
      hinc, hloop, Option.map_some', LineIterator.operator_deref, getlineLines]

theorem LineIterator.ctor_file_eq {σ : Type} (G : String → σ → (Bool × String) × σ)
    (E : String → Option (Bool × String))
    (file : File) (h : Heap σ) (p : Nat) (c : Obj σ) (hp : file.file_ = some p)
    (hc : h p = some c) :
    LineIterator.ctor_file G E file h
      = some (⟨if (G "" c.buf).1.1 then ⟨some p⟩ else ⟨none⟩, (G "" c.buf).1.2⟩,
          Function.update h p
            (some ⟨if (G "" c.buf).1.1 then c.ref_ + 1 else c.ref_, (G "" c.buf).2⟩)) := by
  unfold LineIterator.ctor_file
  rw [File.getline_eq G E file "" h p c hp hc]
  rcases hG : G "" c.buf with ⟨⟨ok, line⟩, s'⟩
  cases ok with
  | false => rfl
  | true =>
    simp only [File.assign_copy, File.ctor, hp, reduceCtorEq, if_false, RefCounted.release]
    rw [RefCounted.addref_some _ p ⟨c.ref_, s'⟩ (by simp)]
    simp

/-- C9: on a Handle that holds a live Buffer on which successive `getline`
calls return `true` exactly `k` times and then `false`, the loop
`for (it = LineIterator(file); it != end; ++it)` with enough fuel dereferences
exactly the `k` lines of those calls, in order, and stops with an Exhausted
iterator. The iterator starts Exhausted iff the first `getline` fails, differs
from the end iterator exactly while it holds a Handle, and an advance from an
Active iterator leaves it Active iff its `getline` returns `true`. -/
theorem line_iterator_loop {σ : Type} (G : String → σ → (Bool × String) × σ)
    (E : String → Option (Bool × String)) (file : File)
    (h : Heap σ) (p : Nat) (c : Obj σ) (k fuel : Nat) (hp : file.file_ = some p)
    (hc : h p = some c) (hk : getlineCount G k "" c.buf = true) (hfuel : k < fuel) :
    (∃ it h', LineIterator.for_each G E fuel file h = some (getlineLines G k "" c.buf, it, h')
        ∧ it.file_.operator_bool = false)
      ∧ (∃ it0 h0, LineIterator.ctor_file G E file h = some (it0, h0)
          ∧ (it0.file_.operator_bool = false ↔ (G "" c.buf).1.1 = false))
      ∧ (∀ it : LineIterator, it.operator_ne LineIterator.ctor = it.file_.operator_bool)
      ∧ (∀ (it : LineIterator) (h1 : Heap σ) (q : Nat) (cq : Obj σ),
          it.file_.file_ = some q → h1 q = some cq →
          ∃ it' h2, LineIterator.operator_incr G E it h1 = some (it', h2)
            ∧ it'.line_ = (G it.line_ cq.buf).1.2
            ∧ it'.file_.operator_bool = (G it.line_ cq.buf).1.1) := by
  have hctor := LineIterator.ctor_file_eq G E file h p c hp hc
  refine ⟨?_, ⟨_, _, hctor, ?_⟩, LineIterator.operator_ne_end, ?_⟩
  · unfold LineIterator.for_each
    rw [hctor]
    cases k with
    | zero =>
      obtain ⟨fuel, rfl⟩ : ∃ f, fuel = f + 1 := ⟨fuel - 1, by omega⟩
      simp only [getlineCount, Bool.not_eq_true'] at hk
      simp only [hk, Bool.false_eq_true, if_false, LineIterator.loop,
        LineIterator.operator_ne_end, File.operator_bool, Option.isSome_none, getlineLines]
      exact ⟨_, _, rfl, rfl⟩
    | succ k =>
      simp only [getlineCount, Bool.and_eq_true] at hk
      simp only [hk.1, if_true]
      obtain ⟨it', h', hloop, hex⟩ := LineIterator.loop_active G E k fuel
        ⟨⟨some p⟩, (G "" c.buf).1.2⟩
        (Function.update h p (some ⟨c.ref_ + 1, (G "" c.buf).2⟩)) p
        ⟨c.ref_ + 1, (G "" c.buf).2⟩ rfl (by simp) hk.2 (by omega)
      refine ⟨it', h', ?_, ?_⟩
      · simp only [hloop, getlineLines]
      · simp [File.operator_bool, hex]
  · cases (G "" c.buf).1.1 <;> simp [File.operator_bool]
  · intro it h1 q cq hq hcq
    obtain ⟨h2, hinc, -⟩ := LineIterator.operator_incr_active G E it h1 q cq hq hcq
    refine ⟨_, h2, hinc, rfl, ?_⟩
    cases (G it.line_ cq.buf).1.1 <;> simp [File.operator_bool, hq]

/-- C9 at a concrete input: the content `a`, line feed, `b` gives the lines
`a` and `b`. -/
theorem line_iterator_loop_witness :
    ∃ it h', LineIterator.for_each memGetline (fun _ => none) 3 ⟨some 0⟩
          (memHeap 1 [97, 10, 98] 0)
        = some (["a", "b"], it, h')
      ∧ it.file_.operator_bool = false :=
  (line_iterator_loop memGetline (fun _ => none) ⟨some 0⟩ (memHeap 1 [97, 10, 98] 0) 0
    ⟨1, ⟨[97, 10, 98], 0⟩⟩ 2 3 rfl rfl (by decide) (by decide)).1

/-- When `getline` has no result on an empty Handle, neither has an advance of
an Exhausted iterator. -/
theorem LineIterator.operator_incr_exhausted_no_result {σ : Type}
    (G : String → σ → (Bool × String) × σ) (it : LineIterator) (h : Heap σ)
    (hex : it.file_.file_ = none) :
    LineIterator.operator_incr G (fun _ => none) it h = none := by
  rw [LineIterator.operator_incr_exhausted G _ it h hex]
  rfl

end BradGet
